import Mathlib

/-
  Verification development for the claude-onedrive-memory repository.

  The TypeScript source is shallowly embedded: text is modelled as lists of
  characters, timestamps as natural numbers (milliseconds since the epoch,
  order-isomorphic to the Date values the code compares), and the mutable
  OneDrive storage (content files plus the JSON index document) as an explicit
  Store value threaded through the operations.  JavaScript string helpers
  (toLowerCase, trim, split, includes, startsWith) are reproduced over
  character lists; the ASCII fragment of the Unicode behaviour is modelled,
  which is all the repository's own tests and data exercise.  Floating point
  scores are modelled with exact rationals: the scoring code only multiplies
  by the literals 2, 1.5 and 0.7 and adds integers, which the rational model
  reproduces operation for operation.
-/

namespace ODSP

/-- Text is modelled as a list of characters. -/
abbrev Str := List Char

/-- ASCII whitespace, the fragment of the JavaScript regexp class \s
(and of String.prototype.trim) that the repository's data exercises. -/
def isSpaceC (c : Char) : Bool :=
  c == ' ' || c == '\t' || c == '\n' || c == '\r' || c == '\x0b' || c == '\x0c'

/-- JavaScript String.prototype.trim restricted to the end of the string. -/
def trimEnd (s : Str) : Str :=
  (s.reverse.dropWhile isSpaceC).reverse

/-- JavaScript String.prototype.trim: drop leading and trailing whitespace. -/
def strTrim (s : Str) : Str :=
  trimEnd (s.dropWhile isSpaceC)

/-- Everything before the first newline: content.split(n)[0] in the source. -/
def firstLine (s : Str) : Str :=
  s.takeWhile (fun c => c != '\n')

/-- JavaScript content.split with a newline separator: the list of lines,
always nonempty (the empty string splits into one empty line). -/
def splitLinesJS (s : Str) : List Str :=
  match s with
  | [] => [[]]
  | c :: rest =>
    if c == '\n' then [] :: splitLinesJS rest
    else
      match splitLinesJS rest with
      | [] => [[c]]
      | l :: ls => (c :: l) :: ls

/-- JavaScript query.split on runs of whitespace followed by filter(Boolean):
split at every whitespace character and drop the empty pieces. -/
def splitWS (s : Str) : List Str :=
  (List.splitOnP isSpaceC s).filter (fun w => !w.isEmpty)

/-- JavaScript String.prototype.toLowerCase, ASCII fragment. -/
def toLowerL (s : Str) : Str :=
  s.map Char.toLower

/-- Boolean string-prefix test, as in JavaScript a.startsWith(b) with the
arguments flipped: isPrefixB b a means b is a prefix of a. -/
def isPrefixB : Str → Str → Bool
  | [], _ => true
  | _ :: _, [] => false
  | a :: as, b :: bs => a == b && isPrefixB as bs

/-- JavaScript haystack.includes(needle): needle occurs contiguously. -/
def hasSubstr : Str → Str → Bool
  | [], needle => needle.isEmpty
  | c :: rest, needle => isPrefixB needle (c :: rest) || hasSubstr rest needle

/-- Fuel-bounded core of the occurrence count; the fuel starts at the
haystack length and dominates the recursion depth. -/
def countOccsFuel (needle : Str) : Nat → Str → Nat
  | 0, _ => 0
  | _ + 1, [] => 0
  | fuel + 1, c :: rest =>
    if isPrefixB needle (c :: rest) then
      1 + countOccsFuel needle fuel (rest.drop (needle.length - 1))
    else
      countOccsFuel needle fuel rest

/-- Number of non-overlapping, leftmost-first occurrences of needle in hay:
the value of hay.split(needle).length - 1 in the source. -/
def countOccs (needle hay : Str) : Nat :=
  countOccsFuel needle hay.length hay

/-- Boolean string-suffix test. -/
def isSuffixB (suf s : Str) : Bool :=
  isPrefixB suf.reverse s.reverse

/-- Drop a suffix if present, as in the regexp replace of a trailing token. -/
def stripSuffix (suf s : Str) : Str :=
  if isSuffixB suf s then s.take (s.length - suf.length) else s

/-- The regexp replace of a leading run of markdown heading markers,
matching the source pattern: at least one hash, then any whitespace. -/
def stripHeading (s : Str) : Str :=
  match s with
  | '#' :: _ => (s.dropWhile (fun c => c == '#')).dropWhile isSpaceC
  | _ => s

/-- JavaScript tags.join with a single-space separator. -/
def joinSpace (ls : List Str) : Str :=
  List.intercalate ([' ']) ls

/-- Lowercase alphanumeric test used by the slug generator. -/
def isAlnumLower (c : Char) : Bool :=
  ('a' ≤ c && c ≤ 'z') || ('0' ≤ c && c ≤ '9')

/-- Collapse consecutive dashes to one dash (second half of the slug
generator's replace of runs of non-alphanumerics with a dash). -/
def squeezeDash : Str → Str
  | [] => []
  | [c] => [c]
  | c :: d :: rest =>
    if c == '-' && d == '-' then squeezeDash (d :: rest)
    else c :: squeezeDash (d :: rest)

/-- Drop dashes at either end (the anchored replace in the slug generator). -/
def trimDashes (s : Str) : Str :=
  ((s.dropWhile (fun c => c == '-')).reverse.dropWhile (fun c => c == '-')).reverse

/-- slugify from src/memory.ts: lowercase, runs of non-alphanumerics become
one dash, strip edge dashes, first 50 characters. -/
def slugify (s : Str) : Str :=
  let lowered := toLowerL s
  let dashed := squeezeDash (lowered.map (fun c => if isAlnumLower c then c else '-'))
  (trimDashes dashed).take 50

/-- extractTitle from src/memory.ts: trim the first line, strip a leading
heading marker run, truncate to 100 characters, with a fixed fallback for
the empty result (the or-else on the falsy empty string). -/
def extractTitle (content : Str) : Str :=
  let firstLn := strTrim (firstLine content)
  let title := stripHeading firstLn
  let truncated := title.take 100
  if truncated.isEmpty then ("Untitled Memory".data) else truncated

/-- createSnippet from src/memory.ts: drop the first line only when it
starts with a hash, join the remaining lines with spaces, trim, keep the
first 150 characters and add an ellipsis when the body is longer. -/
def createSnippet (content : Str) : Str :=
  let lines := splitLinesJS content
  let bodyStart := if isPrefixB ("#".data) (lines.headD []) then 1 else 0
  let body := strTrim (joinSpace (lines.drop bodyStart))
  body.take 150 ++ (if 150 < body.length then ("...".data) else [])

/-- Memory priority values from src/types.ts. -/
inductive Priority
  | high
  | normal
  | low
  deriving Repr, DecidableEq

/-- A full memory entity (src/types.ts Memory); the optional project,
priority, expiry and relation fields default to absent exactly as an
undefined field does in the source. -/
structure Memory where
  id : Str
  category : Str
  tags : List Str
  title : Str
  created : Nat
  updated : Nat
  content : Str
  projectId : Option Str := none
  projectName : Option Str := none
  priority : Option Priority := none
  expiresAt : Option Nat := none
  relatedTo : List Str := []
  deriving Repr, DecidableEq

/-- A denormalized index entry (src/types.ts MemoryIndexEntry). -/
structure IndexEntry where
  id : Str
  category : Str
  tags : List Str
  title : Str
  path : Str
  created : Nat
  updated : Nat
  snippet : Str
  projectId : Option Str := none
  projectName : Option Str := none
  priority : Option Priority := none
  expiresAt : Option Nat := none
  relatedTo : List Str := []
  deriving Repr, DecidableEq

/-- The persisted per-memory file: a frontmatter block of key/value pairs
plus the free-text body.  The gray-matter serialization round-trips these
fields; the body is kept verbatim (the source then trims it on parse). -/
structure FileRec where
  fid : Str
  fcategory : Str
  ftags : List Str
  fcreated : Nat
  fupdated : Nat
  body : Str
  deriving Repr, DecidableEq

/-- The whole storage state: the index document plus the content files,
the latter as a path-keyed association list. -/
structure Store where
  version : Nat
  memories : List IndexEntry
  files : List (Str × FileRec)
  deriving Repr, DecidableEq

/-- Write (create or overwrite) a content file at a path. -/
def writeFile : List (Str × FileRec) → Str → FileRec → List (Str × FileRec)
  | [], p, f => [(p, f)]
  | (q, g) :: rest, p, f =>
    if q == p then (p, f) :: rest else (q, g) :: writeFile rest p f

/-- Read the content file at a path, if present. -/
def readFile : List (Str × FileRec) → Str → Option FileRec
  | [], _ => none
  | (q, g) :: rest, p => if q == p then some g else readFile rest p

/-- Delete the content file at a path. -/
def removeFile : List (Str × FileRec) → Str → List (Str × FileRec)
  | [], _ => []
  | (q, g) :: rest, p => if q == p then rest else (q, g) :: removeFile rest p

/-- formatMemory from src/memory.ts: serialize the frontmatter fields and
the content body. -/
def formatMemory (m : Memory) : FileRec :=
  { fid := m.id, fcategory := m.category, ftags := m.tags,
    fcreated := m.created, fupdated := m.updated, body := m.content }

/-- parseMemory from src/memory.ts: recover the frontmatter fields, derive
the title from the body, and trim the body into the content field. -/
def parseMemory (f : FileRec) : Memory :=
  { id := f.fid, category := f.fcategory, tags := f.ftags,
    title := extractTitle f.body, created := f.fcreated,
    updated := f.fupdated, content := strTrim f.body }

/-- The three generated inputs of a create call: the fresh uuid, the
timestamp, and its date prefix as printed into the storage path. -/
structure CreateInput where
  id : Str
  now : Nat
  nowDate : Str
  deriving Repr, DecidableEq

/-- createMemory from src/memory.ts: derive title, slug and path, write the
content file, then append the index entry. -/
def createMemory (st : Store) (category content : Str) (tags : List Str)
    (fresh : CreateInput) : Memory × Store :=
  let title := extractTitle content
  let slug := slugify title
  let path := ("memories/".data) ++ category ++ ("/".data) ++ fresh.nowDate
      ++ ("-".data) ++ slug ++ (".md".data)
  let m : Memory :=
    { id := fresh.id, category := category, tags := tags, title := title,
      created := fresh.now, updated := fresh.now, content := content }
  let e : IndexEntry :=
    { id := fresh.id, category := category, tags := tags, title := title,
      path := path, created := fresh.now, updated := fresh.now,
      snippet := createSnippet content }
  (m, { st with files := writeFile st.files path (formatMemory m),
                 memories := st.memories ++ [e] })

/-- getMemory from src/memory.ts: find the index entry by exact id, read its
content file, and parse it. -/
def getMemory (st : Store) (id : Str) : Option Memory :=
  match st.memories.find? (fun m => m.id == id) with
  | none => none
  | some e =>
    match readFile st.files e.path with
    | none => none
    | some f => some (parseMemory f)

/-- Locate the first index entry with the exact id, returning the entries
before it, the entry, and the entries after it (the findIndex plus splice
pattern of the source). -/
def splitAtId : List IndexEntry → Str → Option (List IndexEntry × IndexEntry × List IndexEntry)
  | [], _ => none
  | e :: rest, id =>
    if e.id == id then some ([], e, rest)
    else (splitAtId rest id).map (fun pr => (e :: pr.1, pr.2.1, pr.2.2))

/-- updateMemory from src/memory.ts: resolve the exact id, reparse the
stored file, apply the content and tag updates (recomputing the title when
content changes), bump the timestamp, rewrite the file, and replace the
index entry in place with refreshed title, tags, timestamp and snippet. -/
def updateMemoryS (st : Store) (id : Str) (newContent : Option Str)
    (newTags : Option (List Str)) (now : Nat) : Option Memory × Store :=
  match splitAtId st.memories id with
  | none => (none, st)
  | some (pre, e, suf) =>
    match readFile st.files e.path with
    | none => (none, st)
    | some f =>
      let m0 := parseMemory f
      let m1 := match newContent with
        | some c => { m0 with content := c, title := extractTitle c }
        | none => m0
      let m2 := match newTags with
        | some t => { m1 with tags := t }
        | none => m1
      let m := { m2 with updated := now }
      let e' := { e with title := m.title, tags := m.tags, updated := now,
                         snippet := createSnippet m.content }
      (some m, { st with files := writeFile st.files e.path (formatMemory m),
                         memories := pre ++ e' :: suf })

/-- deleteMemory from src/memory.ts: resolve the exact id, delete the
content file, and splice the entry out of the index; false when absent. -/
def deleteMemoryS (st : Store) (id : Str) : Bool × Store :=
  match splitAtId st.memories id with
  | none => (false, st)
  | some (pre, e, suf) =>
    (true, { st with files := removeFile st.files e.path,
                     memories := pre ++ suf })

/-- listMemories from src/memory.ts: the index entries, optionally
restricted to one category. -/
def listMemoriesS (st : Store) (category : Option Str) : List IndexEntry :=
  match category with
  | some c => st.memories.filter (fun m => m.category == c)
  | none => st.memories

/-- isExpired from src/batch.ts: an expiry timestamp is set and strictly in
the past. -/
def isExpired (now : Nat) (e : IndexEntry) : Bool :=
  match e.expiresAt with
  | none => false
  | some t => t < now

/-- The project filtering options of src/batch.ts.  The outer layer of the
projectId option distinguishes an unspecified field (resolve the caller's
current project) from an explicit value. -/
structure ProjOpts where
  projectId : Option (Option Str) := none
  includeGlobal : Bool := true
  allProjects : Bool := false
  includeExpired : Bool := false
  deriving Repr, DecidableEq

/-- The project id a filter call compares against: the explicitly supplied
one, or the detected current project. -/
def currentPid (o : ProjOpts) (detectedPid : Option Str) : Option Str :=
  match o.projectId with
  | none => detectedPid
  | some p => p

/-- filterByProject from src/batch.ts: drop expired entries unless included,
return everything when allProjects is set, short-circuit to the empty list
when there is no project context and globals are excluded, and otherwise
keep globals per includeGlobal and project entries matching the current id. -/
def filterByProject (entries : List IndexEntry) (o : ProjOpts) (now : Nat)
    (detectedPid : Option Str) : List IndexEntry :=
  let entries := if o.includeExpired then entries
                 else entries.filter (fun e => !(isExpired now e))
  if o.allProjects then entries
  else
    let pid := currentPid o detectedPid
    if pid.isNone && !o.includeGlobal then []
    else entries.filter (fun e =>
      match e.projectId with
      | none => o.includeGlobal
      | some p => pid == some p)

/-- calculateScore from src/batch.ts: lowercase both sides, award 100 for a
whole-phrase occurrence, then fold over the whitespace-split query words,
awarding 10 per occurring word plus twice the capped repetition surplus. -/
def calculateScore (text query : Str) : ℚ :=
  let lowerText := toLowerL text
  let lowerQuery := toLowerL query
  let queryWords := splitWS lowerQuery
  let init : ℚ := if hasSubstr lowerText lowerQuery then 100 else 0
  queryWords.foldl (fun score word =>
    if hasSubstr lowerText word then
      score + 10 + ((min (countOccs word lowerText - 1) 5 : Nat) : ℚ) * 2
    else score) init

/-- The per-entry scoring block of searchMemories in src/batch.ts: weighted
field scores, a flat category bonus, then the priority adjustment. -/
def scoreEntry (e : IndexEntry) (query : Str) : ℚ :=
  let s1 := calculateScore e.title query * 2
  let s2 := s1 + calculateScore e.snippet query
  let s3 := s2 + calculateScore (joinSpace e.tags) query * 1.5
  let s4 := if hasSubstr (toLowerL e.category) (toLowerL query) then s3 + 20 else s3
  if e.priority = some Priority.high then s4 * 1.5 + 50
  else if e.priority = some Priority.low then s4 * 0.7
  else s4

/-- A scored search hit, as pushed by the scoring loop. -/
structure SearchResult where
  entry : IndexEntry
  score : ℚ
  deriving Repr, DecidableEq

/-- Stable descending insertion: walk past strictly greater scores and land
before the first equal-or-smaller one. -/
def insertDesc (x : SearchResult) : List SearchResult → List SearchResult
  | [] => [x]
  | y :: ys => if x.score < y.score then y :: insertDesc x ys else x :: y :: ys

/-- A stable sort by descending score, modelling the ECMAScript-mandated
stable Array.prototype.sort with the comparator of the source. -/
def sortDesc (l : List SearchResult) : List SearchResult :=
  l.foldr insertDesc []

/-- The options record of searchMemories in src/batch.ts. -/
structure SearchOpts where
  category : Option Str := none
  tags : Option (List Str) := none
  limit : Nat := 10
  includeFullContent : Bool := false
  proj : ProjOpts := {}
  deriving Repr, DecidableEq

/-- The candidate-construction prefix of searchMemories in src/batch.ts:
list (optionally by category), filter by project, filter by tags, then keep
each entry with its score when the score is positive, in index order. -/
def searchCandidates (st : Store) (query : Str) (o : SearchOpts) (now : Nat)
    (detectedPid : Option Str) : List SearchResult :=
  let entries := listMemoriesS st o.category
  let entries := filterByProject entries o.proj now detectedPid
  let entries := match o.tags with
    | some ts =>
      if ts.isEmpty then entries
      else entries.filter (fun e => ts.any (fun t => e.tags.contains (toLowerL t)))
    | none => entries
  entries.filterMap (fun e =>
    let s := scoreEntry e query
    if 0 < s then some { entry := e, score := s } else none)

/-- The value of a search: the truncated ranked results, and the (id,
memory) pairs hydrated with full content when requested. -/
structure SearchOut where
  results : List SearchResult
  hydrated : List (Str × Option Memory)
  deriving Repr, DecidableEq

/-- searchMemories from src/batch.ts: score the candidates, sort stably by
descending score, truncate to the limit, and fetch full content only for
the surviving results when includeFullContent is set. -/
def searchMemories (st : Store) (query : Str) (o : SearchOpts) (now : Nat)
    (detectedPid : Option Str) : SearchOut :=
  let limited := (sortDesc (searchCandidates st query o now detectedPid)).take o.limit
  { results := limited,
    hydrated :=
      if o.includeFullContent then
        limited.map (fun r => (r.entry.id, getMemory st r.entry.id))
      else [] }

/-- The option record of bulkDelete in src/batch.ts; an absent dryRun field
is falsy there, so it is a plain Bool defaulting to false. -/
structure BulkOpts where
  category : Option Str := none
  expired : Bool := false
  stale : Bool := false
  query : Option Str := none
  dryRun : Bool := false
  deriving Repr, DecidableEq

/-- One per-item line of a batch report. -/
structure BatchItem where
  id : Str
  title : Str
  success : Bool
  deriving Repr, DecidableEq

/-- The aggregate batch report of src/batch.ts. -/
structure BatchResult where
  processed : Nat
  succeeded : Nat
  failed : Nat
  items : List BatchItem
  deriving Repr, DecidableEq

/-- The selection phase of bulkDelete in src/batch.ts: category listing,
then the expired, stale and query predicate filters in order.  The stale
cutoff (now minus ninety calendar days) is computed by the Date library and
passed in here. -/
def bulkCandidates (st : Store) (o : BulkOpts) (now staleCut : Nat)
    (detectedPid : Option Str) : List IndexEntry :=
  let entries := listMemoriesS st o.category
  let entries := if o.expired then entries.filter (isExpired now) else entries
  let entries := if o.stale then
      entries.filter (fun e => e.expiresAt.isNone && decide (e.updated < staleCut))
    else entries
  match o.query with
  | some q =>
    let searchIds := (searchMemories st q { category := o.category, limit := 1000 }
        now detectedPid).results.map (fun r => r.entry.id)
    entries.filter (fun e => searchIds.contains e.id)
  | none => entries

/-- The per-entry loop shared by the batch operations: report each entry as
a success under dryRun, otherwise delete it and record the outcome, never
letting one item stop the rest. -/
def bulkLoop (dryRun : Bool) : Store → List IndexEntry → BatchResult × Store
  | st, [] => (⟨0, 0, 0, []⟩, st)
  | st, e :: rest =>
    if dryRun then
      let (r, st') := bulkLoop dryRun st rest
      ({ processed := r.processed + 1, succeeded := r.succeeded + 1,
         failed := r.failed, items := ⟨e.id, e.title, true⟩ :: r.items }, st')
    else
      let (ok, st1) := deleteMemoryS st e.id
      let (r, st') := bulkLoop dryRun st1 rest
      ({ processed := r.processed + 1,
         succeeded := r.succeeded + (if ok then 1 else 0),
         failed := r.failed + (if ok then 0 else 1),
         items := ⟨e.id, e.title, ok⟩ :: r.items }, st')

/-- bulkDelete from src/batch.ts: select the candidates by the supplied
filters and run the delete/report loop over them. -/
def bulkDelete (st : Store) (o : BulkOpts) (now staleCut : Nat)
    (detectedPid : Option Str) : BatchResult × Store :=
  bulkLoop o.dryRun st (bulkCandidates st o now staleCut detectedPid)

/-- The wire arguments of the batch_delete tool in src/mcp-server.ts: every
field may be absent. -/
structure BatchDeleteArgs where
  category : Option Str := none
  expired : Option Bool := none
  stale : Option Bool := none
  query : Option Str := none
  dryRun : Option Bool := none
  deriving Repr, DecidableEq

/-- The outcome of a tool handler call: an error reply or a batch report. -/
inductive HandlerOut
  | err
  | ok (r : BatchResult)
  deriving Repr, DecidableEq

/-- The batch_delete handler of src/mcp-server.ts: default dryRun to true
for safety, reject a call specifying none of the four filters, and
otherwise run bulkDelete. -/
def batchDeleteHandler (st : Store) (a : BatchDeleteArgs) (now staleCut : Nat)
    (detectedPid : Option Str) : HandlerOut × Store :=
  let dryRun := a.dryRun.getD true
  if !(a.expired.getD false) && !(a.stale.getD false)
      && a.query.isNone && a.category.isNone then
    (HandlerOut.err, st)
  else
    let (r, st') := bulkDelete st
      { category := a.category, expired := a.expired.getD false,
        stale := a.stale.getD false, query := a.query, dryRun := dryRun }
      now staleCut detectedPid
    (HandlerOut.ok r, st')

/-- Resolution of a possibly partial memory id, exactly as in the command
handlers: the first index entry whose id equals the argument or starts
with it. -/
def resolveById (entries : List IndexEntry) (id : Str) : Option IndexEntry :=
  entries.find? (fun e => e.id == id || isPrefixB id e.id)

/-- The forget handler of src/index.ts: resolve the possibly partial id and
delete the match; an unresolved id yields a failure reply with no change. -/
def handleForget (st : Store) (id : Str) : Bool × Store :=
  match resolveById st.memories id with
  | none => (false, st)
  | some m => deleteMemoryS st m.id

/-- The deletion loop of cleanup in src/commands/cleanup.ts: delete each
selected entry through the repository and count the successes. -/
def deleteLoop : Store → List IndexEntry → Nat × Store
  | st, [] => (0, st)
  | st, e :: rest =>
    let (ok, st1) := deleteMemoryS st e.id
    let (n, st') := deleteLoop st1 rest
    ((if ok then 1 else 0) + n, st')

/-- The observable outcome of a cleanup call: the success flag, the entries
listed by a dry run, and the number of deletions performed. -/
structure CleanupOut where
  success : Bool
  reported : List IndexEntry
  deletedCount : Nat
  deriving Repr, DecidableEq

/-- cleanup from src/commands/cleanup.ts: select the expired entries;
report immediately when there are none; report them without mutation under
dryRun; otherwise delete each one, tallying successes independently. -/
def cleanup (st : Store) (dryRun : Bool) (now : Nat) : CleanupOut × Store :=
  let expiredEntries := st.memories.filter (isExpired now)
  if expiredEntries.isEmpty then (⟨true, [], 0⟩, st)
  else if dryRun then (⟨true, expiredEntries, 0⟩, st)
  else
    let (n, st') := deleteLoop st expiredEntries
    (⟨true, [], n⟩, st')

/-- Split at the first occurrence of a separator character, when present:
the capture pattern of a character-class-then-separator regexp. -/
def splitFirst (sep : Char) : Str → Option (Str × Str)
  | [] => none
  | c :: rest =>
    if c == sep then some ([], rest)
    else (splitFirst sep rest).map (fun pr => (c :: pr.1, pr.2))

/-- The generic ssh remote pattern of normalizeGitUrl: git at a nonempty
colon-free host, a colon, and a nonempty remainder. -/
def matchSsh (s : Str) : Option (Str × Str) :=
  if isPrefixB ("git@".data) s then
    match splitFirst ':' (s.drop 4) with
    | some (host, tail) =>
      if host.isEmpty || tail.isEmpty then none else some (host, tail)
    | none => none
  else none

/-- The generic http(s) remote pattern of normalizeGitUrl: a scheme, a
nonempty slash-free host, a slash, and a nonempty remainder. -/
def matchHttps (s : Str) : Option (Str × Str) :=
  let rest? : Option Str :=
    if isPrefixB ("https://".data) s then some (s.drop 8)
    else if isPrefixB ("http://".data) s then some (s.drop 7)
    else none
  rest?.bind (fun rest =>
    match splitFirst '/' rest with
    | some (host, tail) =>
      if host.isEmpty || tail.isEmpty then none else some (host, tail)
    | none => none)

/-- The Azure DevOps ssh pattern of normalizeGitUrl. -/
def matchAzureSsh (s : Str) : Option Str :=
  let p := "git@ssh.dev.azure.com:v3/".data
  if isPrefixB p s then
    let tail := s.drop p.length
    if tail.isEmpty then none else some tail
  else none

/-- The Azure DevOps http(s) pattern of normalizeGitUrl: the fixed host,
two nonempty slash-free segments, the literal _git segment, and a nonempty
repository remainder. -/
def matchAzureHttps (s : Str) : Option (Str × Str × Str) :=
  let rest? : Option Str :=
    if isPrefixB ("https://dev.azure.com/".data) s then some (s.drop 22)
    else if isPrefixB ("http://dev.azure.com/".data) s then some (s.drop 21)
    else none
  rest?.bind (fun rest =>
    match splitFirst '/' rest with
    | some (org, rest2) =>
      if org.isEmpty then none
      else match splitFirst '/' rest2 with
        | some (proj, rest3) =>
          if proj.isEmpty then none
          else if isPrefixB ("_git/".data) rest3 then
            let repo := rest3.drop 5
            if repo.isEmpty then none else some (org, proj, repo)
          else none
        | none => none
    | none => none)

/-- normalizeGitUrl from src/project.ts: trim, strip a trailing .git, then
try the four remote patterns in source order, falling back to the input. -/
def normalizeGitUrl (url : Str) : Str :=
  let normalized := stripSuffix (".git".data) (strTrim url)
  match matchSsh normalized with
  | some (host, rest) => host ++ '/' :: rest
  | none =>
    match matchHttps normalized with
    | some (host, rest) => host ++ '/' :: rest
    | none =>
      match matchAzureSsh normalized with
      | some tail => ("dev.azure.com/".data) ++ tail
      | none =>
        match matchAzureHttps normalized with
        | some (org, proj, repo) =>
          ("dev.azure.com/".data) ++ org ++ '/' :: proj ++ '/' :: repo
        | none => normalized

/-- A minimal index entry used as a concrete test fixture. -/
def mkEntry (id : Str) : IndexEntry :=
  { id := id, category := [], tags := [], title := [], path := [],
    created := 0, updated := 0, snippet := [] }

/-- A concrete stored file used as a test fixture. -/
def fileFix : FileRec :=
  ⟨("a".data), ("task".data), [], 0, 0, ("body".data)⟩

/-- A concrete one-entry store used as a test fixture. -/
def stFix : Store :=
  ⟨1, [{ mkEntry ("a".data) with path := ("p".data) }], [(("p".data), fileFix)]⟩

theorem isPrefixB_refl (s : Str) : isPrefixB s s = true := by
  induction s with
  | nil => rfl
  | cons c cs ih => simp [isPrefixB, ih]

theorem find?_split {α : Type} (p : α → Bool) :
    ∀ (l : List α) (a : α), l.find? p = some a →
      p a = true ∧ ∃ pre suf, l = pre ++ a :: suf ∧ ∀ x ∈ pre, p x = false := by
  intro l
  induction l with
  | nil => intro a h; simp [List.find?] at h
  | cons x xs ih =>
    intro a h
    cases hx : p x with
    | true =>
      rw [List.find?_cons_of_pos _ hx, Option.some.injEq] at h
      subst h
      exact ⟨hx, [], xs, rfl, by simp⟩
    | false =>
      rw [List.find?_cons_of_neg _ (by simp [hx])] at h
      obtain ⟨hpa, pre, suf, hsplit, hpre⟩ := ih a h
      refine ⟨hpa, x :: pre, suf, by simp [hsplit], ?_⟩
      intro y hy
      rcases List.mem_cons.mp hy with rfl | hy'
      · exact hx
      · exact hpre y hy'

/-- The exact-or-prefix predicate of the handlers collapses to the prefix
test alone, because an exact match is a prefix match. -/
theorem resolveById_drop_exact (entries : List IndexEntry) (id : Str) :
    resolveById entries id = entries.find? (fun e => isPrefixB id e.id) := by
  unfold resolveById
  congr 1
  funext e
  cases he : e.id == id with
  | true =>
    have : e.id = id := by simpa using he
    simp [he, this, isPrefixB_refl]
  | false => simp [he]

/-- C3, counterexample: with index entries whose ids are abc then ab, the
lookup of the string ab returns the earlier prefix match abc even though an
exact match ab exists later, contradicting the claimed exact-match
priority. -/
theorem resolveById_exact_not_preferred :
    resolveById [mkEntry ("abc".data), mkEntry ("ab".data)] ("ab".data)
      = some (mkEntry ("abc".data))
    ∧ (mkEntry ("ab".data)).id = ("ab".data)
    ∧ mkEntry ("abc".data) ≠ mkEntry ("ab".data) := by
  decide

/-- C3 (amended): id resolution in the lookup handlers returns the first
index entry in stored order whose id has the argument as a prefix (an exact
match is just a prefix match and gets no priority); when no entry's id has
the argument as a prefix the resolution reports not-found and, in the
forget handler, fails without touching the store. -/
theorem resolveById_first_match (entries : List IndexEntry) (id : Str)
    (st : Store) (e : IndexEntry) :
    (resolveById entries id = some e →
      isPrefixB id e.id = true
      ∧ ∃ pre suf, entries = pre ++ e :: suf
          ∧ ∀ x ∈ pre, isPrefixB id x.id = false)
    ∧ (resolveById entries id = none → ∀ x ∈ entries, isPrefixB id x.id = false)
    ∧ (resolveById st.memories id = none → handleForget st id = (false, st)) := by
  refine ⟨?_, ?_, ?_⟩
  · intro h
    rw [resolveById_drop_exact] at h
    exact find?_split _ entries e h
  · intro h
    rw [resolveById_drop_exact] at h
    exact fun x hx => by simpa using List.find?_eq_none.mp h x hx
  · intro h
    unfold handleForget
    rw [h]

/-- C3 witness: the amended statement evaluated at concrete inputs. -/
theorem resolveById_first_match_witness :
    (isPrefixB ("ab".data) (mkEntry ("abc".data)).id = true
      ∧ ∃ pre suf,
          [mkEntry ("abc".data), mkEntry ("ab".data)]
            = pre ++ (mkEntry ("abc".data)) :: suf
          ∧ ∀ x ∈ pre, isPrefixB ("ab".data) x.id = false)
    ∧ handleForget stFix ("zz".data) = (false, stFix) :=
  ⟨(resolveById_first_match [mkEntry ("abc".data), mkEntry ("ab".data)]
      ("ab".data) stFix (mkEntry ("abc".data))).1 (by decide),
   (resolveById_first_match [] ("zz".data) stFix (mkEntry [])).2.2 (by decide)⟩

theorem none_beq_some {α : Type} [BEq α] (a : α) :
    ((none : Option α) == some a) = false := rfl

/-- The single-pass characterization of the project scope filter claimed by
the specification: an entry passes when it survives the expiry check and
either all projects are requested or its project scope matches. -/
def projectSpecPass (o : ProjOpts) (detectedPid : Option Str) (now : Nat)
    (e : IndexEntry) : Bool :=
  (o.includeExpired || !(isExpired now e))
  && (o.allProjects ||
      (match e.projectId with
       | none => o.includeGlobal
       | some p => currentPid o detectedPid == some p))

/-- C4: the project scope filter first removes expired entries unless
includeExpired is set, returns everything remaining under allProjects, and
otherwise keeps an entry without a projectId exactly when includeGlobal is
set and an entry with a projectId exactly when it equals the current
project id. -/
theorem filterByProject_matches_spec (entries : List IndexEntry) (o : ProjOpts)
    (now : Nat) (pid : Option Str) :
    filterByProject entries o now pid
      = entries.filter (projectSpecPass o pid now) := by
  have hrw : filterByProject entries o now pid =
      (if o.allProjects then
        (if o.includeExpired then entries
         else entries.filter (fun e => !(isExpired now e)))
       else if (currentPid o pid).isNone && !o.includeGlobal then []
       else
        (if o.includeExpired then entries
         else entries.filter (fun e => !(isExpired now e))).filter
          (fun e =>
            match e.projectId with
            | none => o.includeGlobal
            | some p => currentPid o pid == some p)) := rfl
  rw [hrw]
  by_cases hap : o.allProjects = true
  · rw [if_pos hap]
    by_cases hie : o.includeExpired = true
    · rw [if_pos hie]
      symm
      rw [List.filter_eq_self]
      intro e _
      simp [projectSpecPass, hap, hie]
    · have hie' : o.includeExpired = false := by simpa using hie
      rw [if_neg hie]
      apply List.filter_congr
      intro e _
      simp [projectSpecPass, hap, hie']
  · have hap' : o.allProjects = false := by simpa using hap
    rw [if_neg hap]
    by_cases hc : ((currentPid o pid).isNone && !o.includeGlobal) = true
    · have hc' := (Bool.and_eq_true _ _).mp hc
      have hpid : currentPid o pid = none := by
        simpa [Option.isNone_iff_eq_none] using hc'.1
      have hig : o.includeGlobal = false := by simpa using hc'.2
      rw [if_pos hc]
      symm
      rw [List.filter_eq_nil_iff]
      intro e _
      rcases he : e.projectId with _ | p <;>
        simp [projectSpecPass, hap', hig, hpid, he, none_beq_some]
    · rw [if_neg hc]
      by_cases hie : o.includeExpired = true
      · rw [if_pos hie]
        apply List.filter_congr
        intro e _
        rcases he : e.projectId with _ | p <;> simp [projectSpecPass, hap', hie, he]
      · have hie' : o.includeExpired = false := by simpa using hie
        rw [if_neg hie, List.filter_filter]
        apply List.filter_congr
        intro e _
        rcases he : e.projectId with _ | p <;>
          simp [projectSpecPass, hap', hie', he, Bool.and_comm]

/-- The per-field score as the specification words it: one hundred for a
whole-phrase occurrence, plus the sum over the query words of ten plus the
capped repetition bonus for each occurring word. -/
def fieldScoreSpec (text query : Str) : ℚ :=
  (if hasSubstr (toLowerL text) (toLowerL query) then 100 else 0)
  + ((splitWS (toLowerL query)).map (fun w =>
      if hasSubstr (toLowerL text) w then
        10 + ((min (countOccs w (toLowerL text) - 1) 5 : Nat) : ℚ) * 2
      else 0)).sum

/-- The priority adjustment as the specification words it. -/
def priorityAdjust (p : Option Priority) (s : ℚ) : ℚ :=
  match p with
  | some Priority.high => s * 1.5 + 50
  | some Priority.low => s * 0.7
  | _ => s

/-- The whole entry score as the specification words it: the weighted sum
of the three field scores plus the flat category bonus, adjusted by
priority. -/
def scoreSpec (e : IndexEntry) (query : Str) : ℚ :=
  priorityAdjust e.priority
    (2 * fieldScoreSpec e.title query
      + 1 * fieldScoreSpec e.snippet query
      + 1.5 * fieldScoreSpec (joinSpace e.tags) query
      + (if hasSubstr (toLowerL e.category) (toLowerL query) then 20 else 0))

theorem foldl_score_eq_sum (lowerText : Str) (l : List Str) (init : ℚ) :
    l.foldl (fun score word =>
      if hasSubstr lowerText word then
        score + 10 + ((min (countOccs word lowerText - 1) 5 : Nat) : ℚ) * 2
      else score) init
    = init + (l.map (fun w =>
        if hasSubstr lowerText w then
          10 + ((min (countOccs w lowerText - 1) 5 : Nat) : ℚ) * 2
        else 0)).sum := by
  induction l generalizing init with
  | nil => simp
  | cons w ws ih =>
    rw [List.foldl_cons, ih, List.map_cons, List.sum_cons]
    cases hw : hasSubstr lowerText w <;> simp [hw] <;> ring

theorem calculateScore_eq_fieldScoreSpec (text query : Str) :
    calculateScore text query = fieldScoreSpec text query := by
  unfold calculateScore fieldScoreSpec
  rw [foldl_score_eq_sum]

/-- C2: for every index entry and nonempty query, the search score equals
the specification's formula: the sum over title, snippet and joined tags of
the per-field score, weighted two, one and one-and-a-half respectively, plus
a flat twenty when the category contains the query, the total then adjusted
by priority (high: times 1.5 plus 50; low: times 0.7; otherwise
unchanged). -/
theorem score_matches_spec (e : IndexEntry) (query : Str) (hq : query ≠ []) :
    scoreEntry e query = scoreSpec e query := by
  unfold scoreEntry scoreSpec priorityAdjust
  rw [calculateScore_eq_fieldScoreSpec, calculateScore_eq_fieldScoreSpec,
    calculateScore_eq_fieldScoreSpec]
  rcases hp : e.priority with _ | p
  · simp only [hp]
    rw [if_neg (by simp), if_neg (by simp)]
    split_ifs <;> ring
  · cases p with
    | high =>
      simp only [hp]
      rw [if_pos trivial]
      split_ifs <;> ring
    | normal =>
      simp only [hp]
      rw [if_neg (by simp), if_neg (by simp)]
      split_ifs <;> ring
    | low =>
      simp only [hp]
      rw [if_neg (by simp), if_pos trivial]
      split_ifs <;> ring

/-- C2 witness: the scoring equation evaluated at a concrete entry and a
concrete nonempty query. -/
theorem score_matches_spec_witness :
    (("db".data : Str) ≠ [])
    ∧ scoreEntry (mkEntry ("a".data)) ("db".data)
        = scoreSpec (mkEntry ("a".data)) ("db".data) :=
  ⟨by decide, score_matches_spec (mkEntry ("a".data)) ("db".data) (by decide)⟩

theorem readFile_writeFile (files : List (Str × FileRec)) (p : Str) (f : FileRec) :
    readFile (writeFile files p f) p = some f := by
  induction files with
  | nil => simp [writeFile, readFile]
  | cons qg rest ih =>
    rcases qg with ⟨q, g⟩
    by_cases hq : q == p
    · simp [writeFile, readFile, hq]
    · simp only [writeFile, readFile, hq]
      simpa [readFile, hq] using ih

/-- C6, counterexample: creating a memory whose content carries trailing
whitespace and reading it back immediately returns the trimmed content, not
the content that was passed in. -/
theorem create_get_content_trimmed :
    (getMemory
        (createMemory ⟨1, [], []⟩ ("note".data) ("hi ".data) []
          ⟨("id1".data), 5, ("2025-01-01".data)⟩).2
        ("id1".data)).map (fun m => m.content)
      = some ("hi".data)
    ∧ ("hi".data : Str) ≠ ("hi ".data) := by
  decide

/-- C6 (amended): creating a memory and immediately reading it back by the
returned id yields a memory with the same category and the same tags, and
with content equal to the created content trimmed of leading and trailing
whitespace (hence identical whenever the passed content is already
trimmed). -/
theorem create_get_roundtrip (st : Store) (cat content : Str) (tags : List Str)
    (fresh : CreateInput) (hfresh : ∀ e ∈ st.memories, e.id ≠ fresh.id) :
    ∃ m, getMemory (createMemory st cat content tags fresh).2 fresh.id = some m
      ∧ m.category = cat ∧ m.tags = tags ∧ m.content = strTrim content
      ∧ m.id = fresh.id := by
  unfold createMemory getMemory
  rw [List.find?_append]
  have hnone : st.memories.find? (fun m => m.id == fresh.id) = none := by
    rw [List.find?_eq_none]
    intro x hx
    simpa using hfresh x hx
  rw [hnone]
  simp only [Option.none_or]
  rw [List.find?_cons_of_pos _ (by simp)]
  dsimp only
  rw [readFile_writeFile]
  exact ⟨_, rfl, rfl, rfl, rfl, rfl⟩

/-- C6 witness: the amended round trip evaluated on a concrete store. -/
theorem create_get_roundtrip_witness :
    ∃ m, getMemory
        (createMemory stFix ("note".data) ("hello".data) [("t".data)]
          ⟨("id1".data), 5, ("2025-01-01".data)⟩).2
        ("id1".data) = some m
      ∧ m.category = ("note".data) ∧ m.tags = [("t".data)]
      ∧ m.content = strTrim ("hello".data) ∧ m.id = ("id1".data) :=
  create_get_roundtrip stFix ("note".data) ("hello".data) [("t".data)]
    ⟨("id1".data), 5, ("2025-01-01".data)⟩ (by decide)

theorem splitLinesJS_ne_nil (s : Str) : splitLinesJS s ≠ [] := by
  match s with
  | [] => simp [splitLinesJS]
  | c :: rest =>
    by_cases hc : c == '\n'
    · simp [splitLinesJS, hc]
    · simp only [splitLinesJS, hc]
      rcases h : splitLinesJS rest with _ | ⟨l, ls⟩ <;> simp

theorem headD_splitLinesJS (s : Str) : (splitLinesJS s).headD [] = firstLine s := by
  induction s with
  | nil => rfl
  | cons c rest ih =>
    by_cases hc : c == '\n'
    · have hc' : c = '\n' := by simpa using hc
      simp [splitLinesJS, hc, firstLine, hc']
    · have hc' : c ≠ '\n' := by simpa using hc
      simp only [splitLinesJS, hc, Bool.false_eq_true, if_false]
      rcases h : splitLinesJS rest with _ | ⟨l, ls⟩
      · exact absurd h (splitLinesJS_ne_nil rest)
      · have : l = firstLine rest := by
          have := ih
          rw [h] at this
          simpa using this
        simp [firstLine, hc', this]

theorem splitAtId_eq :
    ∀ (l : List IndexEntry) (id : Str) (pre : List IndexEntry) (e : IndexEntry)
      (suf : List IndexEntry), splitAtId l id = some (pre, e, suf) →
      l = pre ++ e :: suf ∧ e.id = id := by
  intro l
  induction l with
  | nil => intro id pre e suf h; simp [splitAtId] at h
  | cons x xs ih =>
    intro id pre e suf h
    by_cases hx : (x.id == id) = true
    · simp only [splitAtId, if_pos hx, Option.some.injEq] at h
      obtain ⟨h1, h2⟩ := Prod.ext_iff.mp h
      obtain ⟨h2a, h2b⟩ := Prod.ext_iff.mp h2
      subst h1
      subst h2a
      subst h2b
      exact ⟨rfl, by simpa using hx⟩
    · simp only [splitAtId, if_neg hx, Option.map_eq_some'] at h
      obtain ⟨⟨p', e', s'⟩, hxs, hmap⟩ := h
      obtain ⟨h1, h2⟩ := Prod.ext_iff.mp hmap
      obtain ⟨h2a, h2b⟩ := Prod.ext_iff.mp h2
      subst h1
      subst h2a
      subst h2b
      obtain ⟨hsplit, hid⟩ := ih id p' e' s' hxs
      exact ⟨by rw [hsplit]; rfl, hid⟩

/-- The title derivation as amended: the trimmed first line with the
leading heading-marker run stripped, truncated to one hundred characters,
with the fixed fallback when the stripped line is empty. -/
def titleSpec (content : Str) : Str :=
  let t := stripHeading (strTrim (firstLine content))
  if t = [] then ("Untitled Memory".data) else t.take 100

/-- The snippet derivation as amended: the lines joined by single spaces
and trimmed — the first line excluded only when it starts with a hash —
kept whole up to one hundred and fifty characters and otherwise truncated
with a trailing ellipsis. -/
def snippetSpec (content : Str) : Str :=
  let rest := if isPrefixB ("#".data) (firstLine content)
              then (splitLinesJS content).tail else splitLinesJS content
  let body := strTrim (joinSpace rest)
  if body.length ≤ 150 then body else body.take 150 ++ ("...".data)

theorem extractTitle_eq_titleSpec (c : Str) : extractTitle c = titleSpec c := by
  simp only [extractTitle, titleSpec]
  rcases h : stripHeading (strTrim (firstLine c)) with _ | ⟨x, xs⟩
  · simp
  · simp [List.take_cons]

theorem createSnippet_eq_snippetSpec (c : Str) :
    createSnippet c = snippetSpec c := by
  simp only [createSnippet, snippetSpec]
  rw [headD_splitLinesJS]
  by_cases hh : isPrefixB ("#".data) (firstLine c) = true
  · rw [if_pos hh, if_pos hh, List.drop_one]
    by_cases hl : (strTrim (joinSpace (splitLinesJS c).tail)).length ≤ 150
    · rw [if_pos hl, if_neg (by omega), List.take_of_length_le hl, List.append_nil]
    · rw [if_neg hl, if_pos (by omega)]
  · rw [if_neg hh, if_neg hh, List.drop_zero]
    by_cases hl : (strTrim (joinSpace (splitLinesJS c))).length ≤ 150
    · rw [if_pos hl, if_neg (by omega), List.take_of_length_le hl, List.append_nil]
    · rw [if_neg hl, if_pos (by omega)]

theorem updateMemory_content_refresh (st : Store) (id c : Str)
    (nt : Option (List Str)) (now : Nat) (m : Memory) (st' : Store)
    (h : updateMemoryS st id (some c) nt now = (some m, st')) :
    m.title = extractTitle c ∧ m.content = c
    ∧ ∃ pre e' suf, st'.memories = pre ++ e' :: suf
        ∧ e'.id = id ∧ e'.title = extractTitle c
        ∧ e'.snippet = createSnippet c := by
  unfold updateMemoryS at h
  rcases hsplit : splitAtId st.memories id with _ | ⟨pre, e, suf⟩ <;> rw [hsplit] at h
  · dsimp only at h
    exact absurd (congrArg Prod.fst h) (by simp)
  · dsimp only at h
    rcases hread : readFile st.files e.path with _ | f <;> rw [hread] at h
    · dsimp only at h
      exact absurd (congrArg Prod.fst h) (by simp)
    · dsimp only at h
      have hid : e.id = id := (splitAtId_eq st.memories id pre e suf hsplit).2
      rcases nt with _ | t
      · dsimp only at h
        obtain ⟨hm, hst⟩ := Prod.ext_iff.mp h
        simp only [Option.some.injEq] at hm
        subst hm
        subst hst
        exact ⟨rfl, rfl, pre, _, suf, rfl, hid, rfl, rfl⟩
      · dsimp only at h
        obtain ⟨hm, hst⟩ := Prod.ext_iff.mp h
        simp only [Option.some.injEq] at hm
        subst hm
        subst hst
        exact ⟨rfl, rfl, pre, _, suf, rfl, hid, rfl, rfl⟩

/-- C7, counterexample: for the content whose first line is the letter x
followed by a space, the derived title is the trimmed x rather than the
claimed raw first line, and the snippet retains that non-heading first line
instead of excluding it. -/
theorem title_snippet_cex :
    extractTitle ("x \ny".data) = ("x".data)
    ∧ ("x".data : Str) ≠ ("x ".data)
    ∧ createSnippet ("x \ny".data) = ("x  y".data)
    ∧ ("x  y".data : Str) ≠ ("y".data) := by
  decide

/-- C7 (amended): the derived title is the trimmed first line with the
leading heading-marker run stripped, truncated to 100 characters (with the
fixed fallback when empty); the snippet is the first 150 characters of the
lines joined by spaces and trimmed, the first line being excluded only when
it starts with a heading marker, with an ellipsis appended when longer; and
an update that supplies new content recomputes both the stored title and
the index snippet from that content. -/
theorem title_snippet_amended (c : Str) (st : Store) (id : Str)
    (nt : Option (List Str)) (now : Nat) :
    extractTitle c = titleSpec c
    ∧ createSnippet c = snippetSpec c
    ∧ ∀ m st', updateMemoryS st id (some c) nt now = (some m, st') →
        m.title = extractTitle c
        ∧ ∃ pre e' suf, st'.memories = pre ++ e' :: suf
            ∧ e'.id = id ∧ e'.title = extractTitle c
            ∧ e'.snippet = createSnippet c := by
  refine ⟨extractTitle_eq_titleSpec c, createSnippet_eq_snippetSpec c, ?_⟩
  intro m st' h
  obtain ⟨h1, _, h3⟩ := updateMemory_content_refresh st id c nt now m st' h
  exact ⟨h1, h3⟩

/-- The result of a concrete successful update, used as a witness input. -/
def updOut : Option Memory × Store :=
  updateMemoryS stFix ("a".data) (some ("new\ncontent".data)) none 7

/-- The memory produced by the concrete update above. -/
def mUpd : Memory :=
  (updOut.1).getD (parseMemory fileFix)

/-- C7 witness: the amended update behaviour evaluated on a concrete
store. -/
theorem title_snippet_amended_witness :
    mUpd.title = extractTitle ("new\ncontent".data)
    ∧ ∃ pre e' suf, (updOut.2).memories = pre ++ e' :: suf
        ∧ e'.id = ("a".data) ∧ e'.title = extractTitle ("new\ncontent".data)
        ∧ e'.snippet = createSnippet ("new\ncontent".data) :=
  (title_snippet_amended ("new\ncontent".data) stFix ("a".data) none 7).2.2
    mUpd updOut.2 (by decide)

/-- C10: whenever the stripped, trimmed first line of the content is empty
(an empty, whitespace-only, or heading-markers-only first line), the
derived title is the fixed fallback string, at creation and on a content
update alike. -/
theorem untitled_fallback (c : Str) (st : Store) (cat : Str) (tags : List Str)
    (fresh : CreateInput) (id : Str) (now : Nat)
    (h : stripHeading (strTrim (firstLine c)) = []) :
    extractTitle c = ("Untitled Memory".data)
    ∧ (createMemory st cat c tags fresh).1.title = ("Untitled Memory".data)
    ∧ ∀ m st', updateMemoryS st id (some c) none now = (some m, st') →
        m.title = ("Untitled Memory".data) := by
  have htitle : extractTitle c = ("Untitled Memory".data) := by
    simp only [extractTitle, h]
    simp
  refine ⟨htitle, ?_, ?_⟩
  · have : (createMemory st cat c tags fresh).1.title = extractTitle c := rfl
    rw [this, htitle]
  · intro m st' hupd
    have := (updateMemory_content_refresh st id c none now m st' hupd).1
    rw [this, htitle]

/-- C10 witness: the fallback title evaluated for a content consisting only
of heading markers, at creation and through a concrete update. -/
theorem untitled_fallback_witness :
    extractTitle ("###".data) = ("Untitled Memory".data)
    ∧ (createMemory stFix ("note".data) ("###".data) []
        ⟨("id1".data), 0, ("d".data)⟩).1.title = ("Untitled Memory".data)
    ∧ ∀ m st', updateMemoryS stFix ("a".data) (some ("###".data)) none 0
        = (some m, st') → m.title = ("Untitled Memory".data) :=
  untitled_fallback ("###".data) stFix ("note".data) []
    ⟨("id1".data), 0, ("d".data)⟩ ("a".data) 0 (by decide)

theorem bulkLoop_dryRun (l : List IndexEntry) :
    ∀ st : Store, bulkLoop true st l
      = ({ processed := l.length, succeeded := l.length, failed := 0,
           items := l.map (fun e => ⟨e.id, e.title, true⟩) }, st) := by
  induction l with
  | nil => intro st; rfl
  | cons e rest ih =>
    intro st
    simp only [bulkLoop, ih st]
    rw [if_pos trivial]
    simp

/-- C1, counterexample: bulkDelete itself, called with no filters at all and
no explicit dryRun, is not rejected and performs a real deletion: on a
one-entry store it reports one success and empties the index. -/
theorem bulkDelete_unguarded :
    (bulkDelete stFix {} 1000 0 none).1.succeeded = 1
    ∧ (bulkDelete stFix {} 1000 0 none).1.processed = 1
    ∧ (bulkDelete stFix {} 1000 0 none).2.memories = [] := by
  decide

/-- C1 (amended): the filter requirement and the dry-run default live one
level above bulkDelete, in the batch_delete tool handler: a handler call
specifying none of the four filters is rejected with the store unchanged,
and a handler call without an explicit dryRun value behaves as a dry run —
the store is unchanged and any report it returns lists exactly the
candidate set with zero failures.  bulkDelete called directly has neither
guard. -/
theorem batchDelete_guards (st : Store) (a : BatchDeleteArgs) (now staleCut : Nat)
    (pid : Option Str) :
    (a.expired.getD false = false → a.stale.getD false = false →
      a.query = none → a.category = none →
      batchDeleteHandler st a now staleCut pid = (HandlerOut.err, st))
    ∧ (a.dryRun = none →
      (batchDeleteHandler st a now staleCut pid).2 = st
      ∧ ∀ r, (batchDeleteHandler st a now staleCut pid).1 = HandlerOut.ok r →
          r.failed = 0
          ∧ r.items = (bulkCandidates st
              { category := a.category, expired := a.expired.getD false,
                stale := a.stale.getD false, query := a.query, dryRun := true }
              now staleCut pid).map (fun e => ⟨e.id, e.title, true⟩)) := by
  constructor
  · intro h1 h2 h3 h4
    have hc : (!(a.expired.getD false) && !(a.stale.getD false)
        && a.query.isNone && a.category.isNone) = true := by
      simp [h1, h2, h3, h4]
    simp only [batchDeleteHandler]
    rw [if_pos hc]
  · intro hd
    have hdr : a.dryRun.getD true = true := by rw [hd]; rfl
    by_cases hc : (!(a.expired.getD false) && !(a.stale.getD false)
        && a.query.isNone && a.category.isNone) = true
    · have heq : batchDeleteHandler st a now staleCut pid = (HandlerOut.err, st) := by
        simp only [batchDeleteHandler]
        rw [if_pos hc]
      rw [heq]
      exact ⟨rfl, fun r hr => absurd hr (by simp)⟩
    · have heq : batchDeleteHandler st a now staleCut pid
          = (HandlerOut.ok
              { processed := (bulkCandidates st
                  { category := a.category, expired := a.expired.getD false,
                    stale := a.stale.getD false, query := a.query, dryRun := true }
                  now staleCut pid).length,
                succeeded := (bulkCandidates st
                  { category := a.category, expired := a.expired.getD false,
                    stale := a.stale.getD false, query := a.query, dryRun := true }
                  now staleCut pid).length,
                failed := 0,
                items := (bulkCandidates st
                  { category := a.category, expired := a.expired.getD false,
                    stale := a.stale.getD false, query := a.query, dryRun := true }
                  now staleCut pid).map (fun e => ⟨e.id, e.title, true⟩) },
             st) := by
        simp only [batchDeleteHandler, hdr]
        rw [if_neg hc]
        simp only [bulkDelete]
        rw [bulkLoop_dryRun]
      rw [heq]
      refine ⟨rfl, ?_⟩
      intro r hr
      injection hr with hr'
      subst hr'
      exact ⟨rfl, rfl⟩

/-- C1 witness: the handler guards evaluated on a concrete store — a call
with no filters is rejected unchanged, and a call with the expired filter
but no dryRun leaves the store unchanged and reports the candidates. -/
theorem batchDelete_guards_witness :
    batchDeleteHandler stFix {} 1000 0 none = (HandlerOut.err, stFix)
    ∧ ((batchDeleteHandler stFix { expired := some true } 1000 0 none).2 = stFix
      ∧ ∀ r, (batchDeleteHandler stFix { expired := some true } 1000 0 none).1
          = HandlerOut.ok r →
          r.failed = 0
          ∧ r.items = (bulkCandidates stFix
              { category := none, expired := true, stale := false,
                query := none, dryRun := true } 1000 0 none).map
              (fun e => ⟨e.id, e.title, true⟩)) :=
  ⟨(batchDelete_guards stFix {} 1000 0 none).1 rfl rfl rfl rfl,
   (batchDelete_guards stFix { expired := some true } 1000 0 none).2 rfl⟩

theorem splitAtId_append_cons (pre : List IndexEntry) (x : IndexEntry)
    (suf : List IndexEntry) (h : ∀ e ∈ pre, e.id ≠ x.id) :
    splitAtId (pre ++ x :: suf) x.id = some (pre, x, suf) := by
  induction pre with
  | nil => simp [splitAtId]
  | cons y ys ih =>
    have hy : (y.id == x.id) = false := by
      have := h y (by simp)
      simpa using this
    simp only [List.cons_append, splitAtId, hy, Bool.false_eq_true, if_false,
      List.append_eq]
    rw [ih (fun e he => h e (by simp [he]))]
    rfl

theorem deleteMemoryS_found (v : Nat) (pre : List IndexEntry) (x : IndexEntry)
    (suf : List IndexEntry) (files : List (Str × FileRec))
    (h : ∀ e ∈ pre, e.id ≠ x.id) :
    deleteMemoryS ⟨v, pre ++ x :: suf, files⟩ x.id
      = (true, ⟨v, pre ++ suf, removeFile files x.path⟩) := by
  unfold deleteMemoryS
  rw [show (⟨v, pre ++ x :: suf, files⟩ : Store).memories = pre ++ x :: suf from rfl,
    splitAtId_append_cons pre x suf h]

theorem deleteLoop_filter (p : IndexEntry → Bool) :
    ∀ (L pre : List IndexEntry) (v : Nat) (files : List (Str × FileRec)),
      ((pre ++ L).map (fun e => e.id)).Nodup →
      (deleteLoop ⟨v, pre ++ L, files⟩ (L.filter p)).1 = (L.filter p).length
      ∧ (deleteLoop ⟨v, pre ++ L, files⟩ (L.filter p)).2.memories
          = pre ++ L.filter (fun e => !(p e)) := by
  intro L
  induction L with
  | nil =>
    intro pre v files _
    simp [deleteLoop]
  | cons x L' ih =>
    intro pre v files hnd
    have hx_pre : ∀ e ∈ pre, e.id ≠ x.id := by
      intro e he heq
      have h1 : e.id ∈ pre.map (fun e => e.id) := List.mem_map_of_mem _ he
      have h2 := (List.nodup_append.mp (by simpa using hnd)).2.2 h1
      exact h2 (by simp [heq])
    by_cases hp : p x = true
    · have hfpos : List.filter p (x :: L') = x :: List.filter p L' := by
        simp [List.filter_cons, hp]
      have hnd' : ((pre ++ L').map (fun e => e.id)).Nodup := by
        refine List.Nodup.sublist ?_ hnd
        exact ((List.sublist_cons_self x L').append_left pre).map _
      obtain ⟨ih1, ih2⟩ := ih pre v (removeFile files x.path) hnd'
      rw [hfpos]
      constructor
      · simp only [deleteLoop, deleteMemoryS_found v pre x L' files hx_pre]
        simp only [ih1, if_pos trivial, List.length_cons]
        omega
      · simp only [deleteLoop, deleteMemoryS_found v pre x L' files hx_pre]
        simp only [ih2]
        simp [List.filter_cons, hp]
    · have hp' : p x = false := by simpa using hp
      have hfneg : List.filter p (x :: L') = List.filter p L' := by
        simp [List.filter_cons, hp']
      have hfpos : List.filter (fun e => !(p e)) (x :: L')
          = x :: List.filter (fun e => !(p e)) L' := by
        simp [List.filter_cons, hp']
      rw [hfneg, hfpos]
      have hsplit : pre ++ x :: L' = (pre ++ [x]) ++ L' := by simp
      rw [hsplit]
      obtain ⟨ih1, ih2⟩ := ih (pre ++ [x]) v files (by
        have := hnd
        rw [hsplit] at this
        exact this)
      refine ⟨ih1, ?_⟩
      rw [ih2]
      simp

/-- C8: cleanup under dryRun returns the store unchanged and reports
exactly the currently expired entries; cleanup without dryRun, on an index
with pairwise distinct ids, leaves exactly the non-expired entries in the
index, in order, and tallies one deletion per expired entry. -/
theorem cleanup_spec (st : Store) (now : Nat)
    (hids : (st.memories.map (fun e => e.id)).Nodup) :
    (cleanup st true now).2 = st
    ∧ (cleanup st true now).1.reported = st.memories.filter (isExpired now)
    ∧ (cleanup st false now).2.memories
        = st.memories.filter (fun e => !(isExpired now e))
    ∧ (cleanup st false now).1.deletedCount
        = (st.memories.filter (isExpired now)).length := by
  by_cases hemp : (st.memories.filter (isExpired now)).isEmpty = true
  · have hnil : st.memories.filter (isExpired now) = [] := by
      simpa [List.isEmpty_iff] using hemp
    have hall : st.memories.filter (fun e => !(isExpired now e)) = st.memories := by
      rw [List.filter_eq_self]
      intro a ha
      have := List.filter_eq_nil_iff.mp hnil a ha
      simpa using this
    simp [cleanup, hemp, hnil, hall]
  · have hmain := deleteLoop_filter (isExpired now) st.memories [] st.version
      st.files (by simpa using hids)
    refine ⟨by simp [cleanup, hemp], by simp [cleanup, hemp], ?_, ?_⟩
    · have h2 := hmain.2
      simp only [List.nil_append] at h2
      simpa [cleanup, hemp] using h2
    · have h1 := hmain.1
      simp only [List.nil_append] at h1
      simpa [cleanup, hemp] using h1

/-- A concrete store with one expired and one fresh entry, used as a
cleanup witness input. -/
def stExp : Store :=
  ⟨1, [{ mkEntry ("e1".data) with path := ("pe".data), expiresAt := some 10 },
       { mkEntry ("f1".data) with path := ("pf".data) }],
   [(("pe".data), fileFix), (("pf".data), fileFix)]⟩

/-- C8 witness: cleanup evaluated on a concrete store with distinct ids,
one expired entry and one fresh one. -/
theorem cleanup_spec_witness :
    (cleanup stExp true 1000).2 = stExp
    ∧ (cleanup stExp true 1000).1.reported
        = stExp.memories.filter (isExpired 1000)
    ∧ (cleanup stExp false 1000).2.memories
        = stExp.memories.filter (fun e => !(isExpired 1000 e))
    ∧ (cleanup stExp false 1000).1.deletedCount
        = (stExp.memories.filter (isExpired 1000)).length :=
  cleanup_spec stExp 1000 (by decide)

theorem mem_insertDesc (x a : SearchResult) (l : List SearchResult) :
    a ∈ insertDesc x l ↔ a = x ∨ a ∈ l := by
  induction l with
  | nil => simp [insertDesc]
  | cons y ys ih =>
    by_cases h : x.score < y.score
    · rw [show insertDesc x (y :: ys) = y :: insertDesc x ys from by
        simp [insertDesc, h]]
      simp [ih]
      tauto
    · rw [show insertDesc x (y :: ys) = x :: y :: ys from by
        simp [insertDesc, h]]
      simp

theorem sortDesc_mem (a : SearchResult) (l : List SearchResult) :
    a ∈ sortDesc l ↔ a ∈ l := by
  induction l with
  | nil => simp [sortDesc]
  | cons x xs ih =>
    rw [show sortDesc (x :: xs) = insertDesc x (sortDesc xs) from rfl,
      mem_insertDesc]
    simp [ih]

theorem pairwise_insertDesc (x : SearchResult) (l : List SearchResult)
    (h : l.Pairwise (fun a b => b.score ≤ a.score)) :
    (insertDesc x l).Pairwise (fun a b => b.score ≤ a.score) := by
  induction l with
  | nil => simp [insertDesc]
  | cons y ys ih =>
    rcases List.pairwise_cons.mp h with ⟨hy, hys⟩
    by_cases hxy : x.score < y.score
    · rw [show insertDesc x (y :: ys) = y :: insertDesc x ys from by
        simp [insertDesc, hxy]]
      rw [List.pairwise_cons]
      refine ⟨?_, ih hys⟩
      intro b hb
      rcases (mem_insertDesc x b ys).mp hb with rfl | hb'
      · exact le_of_lt hxy
      · exact hy b hb'
    · rw [show insertDesc x (y :: ys) = x :: y :: ys from by
        simp [insertDesc, hxy]]
      rw [List.pairwise_cons]
      refine ⟨?_, h⟩
      intro b hb
      rcases List.mem_cons.mp hb with rfl | hb'
      · exact not_lt.mp hxy
      · exact le_trans (hy b hb') (not_lt.mp hxy)

theorem sortDesc_pairwise (l : List SearchResult) :
    (sortDesc l).Pairwise (fun a b => b.score ≤ a.score) := by
  induction l with
  | nil => simp [sortDesc]
  | cons x xs ih => exact pairwise_insertDesc x (sortDesc xs) ih

theorem filter_insertDesc (c : ℚ) (x : SearchResult) (l : List SearchResult) :
    (insertDesc x l).filter (fun r => decide (r.score = c))
      = if x.score = c then x :: l.filter (fun r => decide (r.score = c))
        else l.filter (fun r => decide (r.score = c)) := by
  induction l with
  | nil =>
    by_cases hx : x.score = c <;> simp [insertDesc, hx]
  | cons y ys ih =>
    by_cases hxy : x.score < y.score
    · rw [show insertDesc x (y :: ys) = y :: insertDesc x ys from by
        simp [insertDesc, hxy]]
      rw [List.filter_cons, ih]
      by_cases hx : x.score = c
      · have hy : ¬(y.score = c) := by
          intro hyc
          rw [hx] at hxy
          rw [hyc] at hxy
          exact lt_irrefl c hxy
        simp [hx, hy, List.filter_cons]
      · by_cases hyc : y.score = c <;> simp [hx, hyc, List.filter_cons]
    · rw [show insertDesc x (y :: ys) = x :: y :: ys from by
        simp [insertDesc, hxy]]
      rw [List.filter_cons]
      by_cases hx : x.score = c <;> simp [hx]

theorem sortDesc_filter (c : ℚ) (l : List SearchResult) :
    (sortDesc l).filter (fun r => decide (r.score = c))
      = l.filter (fun r => decide (r.score = c)) := by
  induction l with
  | nil => rfl
  | cons x xs ih =>
    rw [show sortDesc (x :: xs) = insertDesc x (sortDesc xs) from rfl,
      filter_insertDesc, List.filter_cons]
    by_cases hx : x.score = c <;> simp [hx, ih]

theorem filter_of_take {α : Type} (p : α → Bool) :
    ∀ (l : List α) (n : Nat), ∃ m, (l.take n).filter p = (l.filter p).take m := by
  intro l
  induction l with
  | nil => intro n; exact ⟨0, by simp⟩
  | cons x xs ih =>
    intro n
    cases n with
    | zero => exact ⟨0, by simp⟩
    | succ k =>
      obtain ⟨m, hm⟩ := ih k
      by_cases hx : p x = true
      · exact ⟨m + 1, by simp [List.take_succ_cons, List.filter_cons, hx, hm]⟩
      · exact ⟨m, by simp [List.take_succ_cons, List.filter_cons, hx, hm]⟩

theorem searchCandidates_pos (st : Store) (query : Str) (o : SearchOpts)
    (now : Nat) (pid : Option Str) (r : SearchResult)
    (hr : r ∈ searchCandidates st query o now pid) : 0 < r.score := by
  unfold searchCandidates at hr
  obtain ⟨e, _, hfe⟩ := List.mem_filterMap.mp hr
  dsimp only at hfe
  by_cases hs : 0 < scoreEntry e query
  · rw [if_pos hs] at hfe
    injection hfe with h
    subst h
    exact hs
  · rw [if_neg hs] at hfe
    exact absurd hfe (by simp)

theorem insertDesc_length (x : SearchResult) (l : List SearchResult) :
    (insertDesc x l).length = l.length + 1 := by
  induction l with
  | nil => rfl
  | cons y ys ih =>
    by_cases h : x.score < y.score
    · rw [show insertDesc x (y :: ys) = y :: insertDesc x ys from by
        simp [insertDesc, h]]
      simp [ih]
    · rw [show insertDesc x (y :: ys) = x :: y :: ys from by
        simp [insertDesc, h]]
      simp

theorem sortDesc_length (l : List SearchResult) :
    (sortDesc l).length = l.length := by
  induction l with
  | nil => rfl
  | cons x xs ih =>
    rw [show sortDesc (x :: xs) = insertDesc x (sortDesc xs) from rfl,
      insertDesc_length, ih, List.length_cons]

/-- C5: search results contain only entries with positive score, are
ordered by weakly descending score, preserve the original candidate order
within each score class (stability), number exactly the minimum of the
limit and the candidate count (so every positive-scoring candidate is
returned up to the limit), never omit a candidate in favour of a
lower-scoring returned one, and full content is hydrated exactly for the
ids of the final truncated results. -/
theorem search_ranking_spec (st : Store) (query : Str) (o : SearchOpts)
    (now : Nat) (pid : Option Str) :
    (∀ r ∈ (searchMemories st query o now pid).results, 0 < r.score)
    ∧ ((searchMemories st query o now pid).results).Pairwise
        (fun a b => b.score ≤ a.score)
    ∧ (∀ c : ℚ, ∃ n,
        ((searchMemories st query o now pid).results).filter
            (fun r => decide (r.score = c))
          = ((searchCandidates st query o now pid).filter
              (fun r => decide (r.score = c))).take n)
    ∧ ((searchMemories st query o now pid).results).length ≤ o.limit
    ∧ ((searchMemories st query o now pid).results).length
        = min o.limit (searchCandidates st query o now pid).length
    ∧ (∀ r ∈ (searchMemories st query o now pid).results,
        ∀ q ∈ searchCandidates st query o now pid,
          q ∉ (searchMemories st query o now pid).results → q.score ≤ r.score)
    ∧ ((searchMemories st query o now pid).hydrated).map Prod.fst
        = (if o.includeFullContent then
            ((searchMemories st query o now pid).results).map (fun r => r.entry.id)
          else []) := by
  have hres : (searchMemories st query o now pid).results
      = (sortDesc (searchCandidates st query o now pid)).take o.limit := rfl
  refine ⟨?_, ?_, ?_, ?_, ?_, ?_, ?_⟩
  · intro r hr
    rw [hres] at hr
    have h1 : r ∈ sortDesc (searchCandidates st query o now pid) :=
      List.take_subset _ _ hr
    exact searchCandidates_pos st query o now pid r ((sortDesc_mem r _).mp h1)
  · rw [hres]
    exact List.Pairwise.sublist (List.take_sublist _ _) (sortDesc_pairwise _)
  · intro c
    rw [hres]
    obtain ⟨m, hm⟩ := filter_of_take (fun r => decide (r.score = c))
      (sortDesc (searchCandidates st query o now pid)) o.limit
    exact ⟨m, by rw [hm, sortDesc_filter]⟩
  · rw [hres]
    exact List.length_take_le _ _
  · rw [hres, List.length_take, sortDesc_length]
  · intro r hr q hq hnq
    rw [hres] at hr hnq
    have hq' : q ∈ sortDesc (searchCandidates st query o now pid) :=
      (sortDesc_mem q _).mpr hq
    have hsplit := List.take_append_drop o.limit
      (sortDesc (searchCandidates st query o now pid))
    rw [← hsplit] at hq'
    have hqdrop : q ∈ (sortDesc (searchCandidates st query o now pid)).drop
        o.limit := by
      rcases List.mem_append.mp hq' with hqt | hqd
      · exact absurd hqt hnq
      · exact hqd
    have hpw := sortDesc_pairwise (searchCandidates st query o now pid)
    rw [← hsplit] at hpw
    exact (List.pairwise_append.mp hpw).2.2 r hr q hqdrop
  · have hh : (searchMemories st query o now pid).hydrated
        = (if o.includeFullContent then
            ((sortDesc (searchCandidates st query o now pid)).take o.limit).map
              (fun r => (r.entry.id, getMemory st r.entry.id))
          else []) := rfl
    rw [hh, hres]
    by_cases hic : o.includeFullContent = true <;>
      simp [hic, List.map_map] <;> rfl

/-- C9: the project id normalizer maps the two equivalent Azure DevOps
remote forms to different strings, because the generic ssh and http(s)
patterns shadow the Azure-specific branches, contradicting the function's
own documentation; the GitHub forms agree as intended. -/
theorem normalizeGitUrl_azure_bug :
    normalizeGitUrl ("git@ssh.dev.azure.com:v3/org/project/repo".data)
      = ("ssh.dev.azure.com/v3/org/project/repo".data)
    ∧ normalizeGitUrl ("https://dev.azure.com/org/project/_git/repo".data)
      = ("dev.azure.com/org/project/_git/repo".data)
    ∧ normalizeGitUrl ("git@ssh.dev.azure.com:v3/org/project/repo".data)
      ≠ normalizeGitUrl ("https://dev.azure.com/org/project/_git/repo".data)
    ∧ normalizeGitUrl ("git@github.com:user/repo.git".data)
      = normalizeGitUrl ("https://github.com/user/repo.git".data) := by
  decide

end ODSP
